import Mathlib

/-!
Verification of the per-event initial-condition core (TRENTO-style event
computation): generalized-mean selection, grid construction, nuclear
thickness deposition, reduced-thickness combination, and observable
extraction.  All real arithmetic is modelled exactly over `ℝ`; a division
whose IEEE result would be non-finite (denominator exactly zero) is
modelled as `Option.none` via `fdiv`.
-/

namespace Trento

/-- Numerical tolerance used throughout the source (`constexpr double TINY = 1e-12`). -/
noncomputable def TINY : ℝ := 1e-12

/-- Generalized mean for `p > 0`: `(1/2*(a^p + b^p))^(1/p)`. -/
noncomputable def positive_pmean (p a b : ℝ) : ℝ :=
  (0.5 * (a ^ p + b ^ p)) ^ (1 / p)

/-- Generalized mean for `p < 0`: same as the positive version, except it
returns `0` when either argument is below `TINY`. -/
noncomputable def negative_pmean (p a b : ℝ) : ℝ :=
  if a < TINY ∨ b < TINY then 0 else positive_pmean p a b

/-- Generalized mean for `p == 0`: the geometric mean `sqrt (a*b)`. -/
noncomputable def geometric_mean (a b : ℝ) : ℝ :=
  Real.sqrt (a * b)

/-- Construction-time selection of the generalized mean from the configured
exponent `p`, mirroring the `if (fabs(p) < TINY) … else if (p > 0.) … else …`
chain in the `Event` constructor. -/
noncomputable def select_mean (p : ℝ) : ℝ → ℝ → ℝ :=
  if |p| < TINY then geometric_mean
  else if 0 < p then positive_pmean p
  else negative_pmean p

/-- Grid size: `nsteps = ceil(2*max/step)` (the `std::ceil` result is an exact
integer, so the `int` conversion is the ceiling itself). -/
noncomputable def nstepsOf (m s : ℝ) : ℤ := ⌈2 * m / s⌉

/-- Actual grid half-width: `xymax = .5*nsteps*dxy`. -/
noncomputable def xymaxOf (m s : ℝ) : ℝ := 0.5 * ((nstepsOf m s : ℝ)) * s

/-- `clip(value, min, max)`: limit a value to a range, as in the source. -/
def clip (value mn mx : ℤ) : ℤ :=
  if value < mn then mn else if mx < value then mx else value

/-- C++ `static_cast<int>` on a `double`: truncation toward zero. -/
noncomputable def cxx_int (x : ℝ) : ℤ := if 0 ≤ x then ⌊x⌋ else ⌈x⌉

/-- A nucleon: 2D position and participant flag (read-only external entity). -/
structure Nucleon where
  x : ℝ
  y : ℝ
  is_participant : Bool

/-- Rectangular support boundary `{xmin, xmax, ymin, ymax}` returned by
`NucleonCommon::boundary`. -/
structure NucleonBoundary where
  xmin : ℝ
  xmax : ℝ
  ymin : ℝ
  ymax : ℝ

/-- The nucleon deposition rule (`NucleonCommon`): a support boundary and a
thickness value, both pure functions. -/
structure NucleonCommon where
  boundary : Nucleon → NucleonBoundary
  thickness : Nucleon → ℝ → ℝ → ℝ

/-- Fixed grid parameters owned by the `Event`: number of steps, step size,
and actual half-width. -/
structure GridP where
  nsteps : ℤ
  dxy : ℝ
  xymax : ℝ

/-- `ixmin = clip(int((boundary[0]+xymax)/dxy), 0, nsteps-1)`. -/
noncomputable def ixminIdx (P : GridP) (nc : NucleonCommon) (nuc : Nucleon) : ℤ :=
  clip (cxx_int (((nc.boundary nuc).xmin + P.xymax) / P.dxy)) 0 (P.nsteps - 1)

/-- `ixmax = clip(int((boundary[1]+xymax)/dxy), 0, nsteps-1)`. -/
noncomputable def ixmaxIdx (P : GridP) (nc : NucleonCommon) (nuc : Nucleon) : ℤ :=
  clip (cxx_int (((nc.boundary nuc).xmax + P.xymax) / P.dxy)) 0 (P.nsteps - 1)

/-- `iymin = clip(int((boundary[2]+xymax)/dxy), 0, nsteps-1)`. -/
noncomputable def iyminIdx (P : GridP) (nc : NucleonCommon) (nuc : Nucleon) : ℤ :=
  clip (cxx_int (((nc.boundary nuc).ymin + P.xymax) / P.dxy)) 0 (P.nsteps - 1)

/-- `iymax = clip(int((boundary[3]+xymax)/dxy), 0, nsteps-1)`. -/
noncomputable def iymaxIdx (P : GridP) (nc : NucleonCommon) (nuc : Nucleon) : ℤ :=
  clip (cxx_int (((nc.boundary nuc).ymax + P.xymax) / P.dxy)) 0 (P.nsteps - 1)

/-- Physical coordinate of the center of cell `i` along one axis:
`(i + .5)*dxy - xymax`. -/
noncomputable def cellCenter (P : GridP) (i : ℤ) : ℝ :=
  ((i : ℝ) + 0.5) * P.dxy - P.xymax

/-- Whether cell `(iy, ix)` lies in the clipped index rectangle of `nuc`
(inclusive on both ends), i.e. is visited by the deposition loops. -/
noncomputable def inRect (P : GridP) (nc : NucleonCommon) (nuc : Nucleon)
    (iy ix : ℤ) : Prop :=
  ixminIdx P nc nuc ≤ ix ∧ ix ≤ ixmaxIdx P nc nuc ∧
    iyminIdx P nc nuc ≤ iy ∧ iy ≤ iymaxIdx P nc nuc

noncomputable instance (P : GridP) (nc : NucleonCommon) (nuc : Nucleon) (iy ix : ℤ) :
    Decidable (inRect P nc nuc iy ix) := by
  unfold inRect; infer_instance

/-- Deposit one participant's profile onto the grid: add
`thickness(nucleon, cell center)` to every cell of the clipped index
rectangle. -/
noncomputable def deposit (P : GridP) (nc : NucleonCommon) (nuc : Nucleon)
    (g : ℤ → ℤ → ℝ) : ℤ → ℤ → ℝ :=
  fun iy ix =>
    if inRect P nc nuc iy ix then
      g iy ix + nc.thickness nuc (cellCenter P ix) (cellCenter P iy)
    else g iy ix

/-- One step of the thickness loop: skip non-participants; otherwise
increment the participant counter and deposit. -/
noncomputable def thicknessStep (P : GridP) (nc : NucleonCommon)
    (st : (ℤ → ℤ → ℝ) × ℕ) (nuc : Nucleon) : (ℤ → ℤ → ℝ) × ℕ :=
  if nuc.is_participant then (deposit P nc nuc st.1, st.2 + 1) else st

/-- `Event::compute_nuclear_thickness`: wipe the target grid with zeros
(whatever its previous contents `g0` were), then loop over the nucleus
depositing each participant; `npart0` is the running participant counter. -/
noncomputable def compute_nuclear_thickness (P : GridP) (nc : NucleonCommon)
    (nucleus : List Nucleon) (npart0 : ℕ) (_g0 : ℤ → ℤ → ℝ) : (ℤ → ℤ → ℝ) × ℕ :=
  nucleus.foldl (thicknessStep P nc) (fun _ _ => (0 : ℝ), npart0)

/-- The single-nucleon contribution used to characterize the accumulator:
the thickness at the cell center if the cell is in the nucleon's clipped
rectangle, else `0`. -/
noncomputable def nucleonContrib (P : GridP) (nc : NucleonCommon) (nuc : Nucleon)
    (iy ix : ℤ) : ℝ :=
  if inRect P nc nuc iy ix then
    nc.thickness nuc (cellCenter P ix) (cellCenter P iy)
  else 0

/-- Mutable state threaded by the reduced-thickness loop: the output grid
`TR` and the running accumulators `sum`, `ixcm`, `iycm`. -/
structure CombineState where
  TR : ℤ → ℤ → ℝ
  sum : ℝ
  ixcm : ℝ
  iycm : ℝ

/-- The value written to cell `c = (iy, ix)`:
`t = norm * gen_mean(TA[iy][ix], TB[iy][ix])`. -/
noncomputable def cellValue (gm : ℝ → ℝ → ℝ) (norm : ℝ) (TA TB : ℤ → ℤ → ℝ)
    (c : ℤ × ℤ) : ℝ :=
  norm * gm (TA c.1 c.2) (TB c.1 c.2)

/-- Loop body of `Event::compute_reduced_thickness`: store `t` in `TR`,
accumulate `sum += t`, `ixcm += t*ix`, `iycm += t*iy`. -/
noncomputable def combineStep (gm : ℝ → ℝ → ℝ) (norm : ℝ) (TA TB : ℤ → ℤ → ℝ)
    (st : CombineState) (c : ℤ × ℤ) : CombineState :=
  { TR := fun iy ix =>
      if iy = c.1 ∧ ix = c.2 then cellValue gm norm TA TB c else st.TR iy ix
    sum := st.sum + cellValue gm norm TA TB c
    ixcm := st.ixcm + cellValue gm norm TA TB c * (c.2 : ℝ)
    iycm := st.iycm + cellValue gm norm TA TB c * (c.1 : ℝ) }

/-- One row of grid cells `(iy, ix)` for `ix = 0 … n-1`. -/
def rowCells (n : ℕ) (iy : ℕ) : List (ℤ × ℤ) :=
  (List.range n).map fun (ix : ℕ) => ((iy : ℤ), (ix : ℤ))

/-- All grid cells in loop order (`iy` outer, `ix` inner). -/
def cellList (n : ℕ) : List (ℤ × ℤ) :=
  (List.range n).flatMap (rowCells n)

/-- `Event::compute_reduced_thickness`, folded over the cells in loop order
starting from zeroed accumulators. -/
noncomputable def compute_reduced_thickness (gm : ℝ → ℝ → ℝ) (norm : ℝ) (n : ℕ)
    (TA TB : ℤ → ℤ → ℝ) : CombineState :=
  (cellList n).foldl (combineStep gm norm TA TB) ⟨fun _ _ => 0, 0, 0, 0⟩

/-- `multiplicity_ = dxy*dxy*sum`. -/
noncomputable def multiplicity (gm : ℝ → ℝ → ℝ) (norm dxy : ℝ) (n : ℕ)
    (TA TB : ℤ → ℤ → ℝ) : ℝ :=
  dxy * dxy * (compute_reduced_thickness gm norm n TA TB).sum

/-- IEEE-hazard-aware division: a C++ `double` division whose denominator is
exactly zero yields a non-finite value (NaN or ±Inf); we model that outcome
as `none`. -/
noncomputable def fdiv (a b : ℝ) : Option ℝ :=
  if b = 0 then none else some (a / b)

/-- `ixcm_ = ixcm / sum` — an unguarded division in the source. -/
noncomputable def ixcmResult (gm : ℝ → ℝ → ℝ) (norm : ℝ) (n : ℕ)
    (TA TB : ℤ → ℤ → ℝ) : Option ℝ :=
  fdiv (compute_reduced_thickness gm norm n TA TB).ixcm
    (compute_reduced_thickness gm norm n TA TB).sum

/-- `iycm_ = iycm / sum` — an unguarded division in the source. -/
noncomputable def iycmResult (gm : ℝ → ℝ → ℝ) (norm : ℝ) (n : ℕ)
    (TA TB : ℤ → ℤ → ℝ) : Option ℝ :=
  fdiv (compute_reduced_thickness gm norm n TA TB).iycm
    (compute_reduced_thickness gm norm n TA TB).sum

/-- Riemann sum of a grid over all `n × n` cells (used to recompute the
multiplicity from the output field). -/
noncomputable def gridSum (n : ℕ) (g : ℤ → ℤ → ℝ) : ℝ :=
  ∑ iy ∈ Finset.range n, ∑ ix ∈ Finset.range n, g (iy : ℤ) (ix : ℤ)

/-- Sum of a mapped `List.range` as a `Finset.range` sum. -/
theorem sum_map_range (f : ℕ → ℝ) (n : ℕ) :
    (((List.range n).map f).sum) = ∑ i ∈ Finset.range n, f i := by
  induction n with
  | zero => simp
  | succ k ih =>
      rw [List.range_succ, List.map_append, List.sum_append,
        Finset.sum_range_succ, ih]
      simp

/-- Sum of a map over a `flatMap` is the sum of the per-row sums. -/
theorem sum_map_flatMap (g : ℤ × ℤ → ℝ) (f : ℕ → List (ℤ × ℤ)) (L : List ℕ) :
    (((L.flatMap f).map g).sum) = ((L.map fun a => (((f a).map g).sum)).sum) := by
  induction L with
  | nil => simp
  | cons a L ih => simp [List.flatMap_cons, ih]

/-- The fold of `combineStep` over any cell list, characterized: the final
`sum` adds the value of every listed cell, and the final grid holds the cell
value at every listed cell and the initial contents elsewhere. -/
theorem combine_foldl_spec (gm : ℝ → ℝ → ℝ) (norm : ℝ) (TA TB : ℤ → ℤ → ℝ)
    (L : List (ℤ × ℤ)) (st : CombineState) :
    ((L.foldl (combineStep gm norm TA TB) st).sum =
        st.sum + ((L.map (cellValue gm norm TA TB)).sum)) ∧
      ∀ iy ix : ℤ, (L.foldl (combineStep gm norm TA TB) st).TR iy ix =
        if (iy, ix) ∈ L then cellValue gm norm TA TB (iy, ix) else st.TR iy ix := by
  induction L generalizing st with
  | nil => simp
  | cons c L ih =>
      rw [List.foldl_cons]
      refine ⟨?_, ?_⟩
      · rw [(ih _).1]
        simp [combineStep]
        ring
      · intro iy ix
        rw [(ih _).2]
        by_cases hmem : (iy, ix) ∈ L
        · simp [hmem]
        · by_cases hc : (iy, ix) = c
          · subst hc
            simp [hmem, combineStep]
          · have : ¬(iy = c.1 ∧ ix = c.2) := by
              intro h
              exact hc (Prod.ext h.1 h.2)
            simp [hmem, combineStep, this, hc]

/-- Membership of an in-range index pair in the cell list. -/
theorem mem_cellList (n : ℕ) (iy ix : ℕ) (hy : iy < n) (hx : ix < n) :
    ((iy : ℤ), (ix : ℤ)) ∈ cellList n := by
  have h1 : ((iy : ℤ), (ix : ℤ)) ∈ rowCells n iy :=
    List.mem_map_of_mem _ (List.mem_range.mpr hx)
  exact List.mem_flatMap.mpr ⟨iy, List.mem_range.mpr hy, h1⟩

/-- The closed-form real-part polynomial accumulated for harmonic order `n`
(the factor multiplying `t` in `e_n.re += t * …`). -/
def termRe : ℕ → ℝ → ℝ → ℝ
  | 2, x, y => y ^ 2 - x ^ 2
  | 3, x, y => y ^ 3 - 3 * y * x ^ 2
  | 4, x, y => x ^ 4 + y ^ 4 - 6 * (x ^ 2 * y ^ 2)
  | 5, x, y => y * (5 * x ^ 4 - 10 * (x ^ 2 * y ^ 2) + y ^ 4)
  | _, _, _ => 0

/-- The closed-form imaginary-part polynomial accumulated for harmonic order
`n` (the factor multiplying `t` in `e_n.im += t * …`). -/
def termIm : ℕ → ℝ → ℝ → ℝ
  | 2, x, y => 2 * (x * y)
  | 3, x, y => 3 * x * y ^ 2 - x ^ 3
  | 4, x, y => 4 * (x * y) * (y ^ 2 - x ^ 2)
  | 5, x, y => x * (x ^ 4 - 10 * (x ^ 2 * y ^ 2) + 5 * y ^ 4)
  | _, _, _ => 0

/-- The weight factor accumulated for harmonic order `n` (the factor
multiplying `t` in `e_n.wt += t * …`): `r2`, `r2*r`, `r4`, `r4*r`. -/
noncomputable def wtTerm : ℕ → ℝ → ℝ → ℝ
  | 2, x, y => x ^ 2 + y ^ 2
  | 3, x, y => (x ^ 2 + y ^ 2) * Real.sqrt (x ^ 2 + y ^ 2)
  | 4, x, y => (x ^ 2 + y ^ 2) * (x ^ 2 + y ^ 2)
  | 5, x, y => (x ^ 2 + y ^ 2) * (x ^ 2 + y ^ 2) * Real.sqrt (x ^ 2 + y ^ 2)
  | _, _, _ => 0

/-- The cells visited without `continue` by each observable pass: the cells
`(iy, ix)` of the `nsteps × nsteps` grid whose value is not below `TINY`. -/
noncomputable def includedCells (n : ℕ) (TR : ℤ → ℤ → ℝ) : Finset (ℕ × ℕ) :=
  (Finset.range n ×ˢ Finset.range n).filter
    fun c => ¬ (TR (c.1 : ℤ) (c.2 : ℤ) < TINY)

/-- Relative x-coordinate of a cell: `x = ix - ixcm`. -/
noncomputable def relX (c : ℕ × ℕ) (cx : ℝ) : ℝ := (c.2 : ℝ) - cx

/-- Relative y-coordinate of a cell: `y = iy - iycm`. -/
noncomputable def relY (c : ℕ × ℕ) (cy : ℝ) : ℝ := (c.1 : ℝ) - cy

/-- Accumulated real part for harmonic order `nh`: `Σ t * termRe`. -/
noncomputable def accRe (nh n : ℕ) (TR : ℤ → ℤ → ℝ) (cx cy : ℝ) : ℝ :=
  ∑ c ∈ includedCells n TR,
    TR (c.1 : ℤ) (c.2 : ℤ) * termRe nh (relX c cx) (relY c cy)

/-- Accumulated imaginary part for harmonic order `nh`: `Σ t * termIm`. -/
noncomputable def accIm (nh n : ℕ) (TR : ℤ → ℤ → ℝ) (cx cy : ℝ) : ℝ :=
  ∑ c ∈ includedCells n TR,
    TR (c.1 : ℤ) (c.2 : ℤ) * termIm nh (relX c cx) (relY c cy)

/-- Accumulated weight for harmonic order `nh`: `Σ t * r^nh`. -/
noncomputable def accWt (nh n : ℕ) (TR : ℤ → ℤ → ℝ) (cx cy : ℝ) : ℝ :=
  ∑ c ∈ includedCells n TR,
    TR (c.1 : ℤ) (c.2 : ℤ) * wtTerm nh (relX c cx) (relY c cy)

/-- Accumulated entropy proxy `Si = Σ t^(4/3)` over the included cells. -/
noncomputable def entropySum (n : ℕ) (TR : ℤ → ℤ → ℝ) : ℝ :=
  ∑ c ∈ includedCells n TR, TR (c.1 : ℤ) (c.2 : ℤ) ^ ((4 : ℝ) / 3)

/-- Accumulated total entropy weight `total_ent = Σ t` over the included
cells (the radius-pass denominator). -/
noncomputable def totalEnt (n : ℕ) (TR : ℤ → ℤ → ℝ) : ℝ :=
  ∑ c ∈ includedCells n TR, TR (c.1 : ℤ) (c.2 : ℤ)

/-- `EccentricityAccumulator::finish`:
`sqrt(re*re + im*im) / fmax(wt, TINY)`. -/
noncomputable def eccFinish (re im wt : ℝ) : ℝ :=
  Real.sqrt (re * re + im * im) / max wt TINY

/-- The eccentricity magnitude of harmonic order `nh` produced by the
magnitude pass. -/
noncomputable def eccMag (nh n : ℕ) (TR : ℤ → ℤ → ℝ) (cx cy : ℝ) : ℝ :=
  eccFinish (accRe nh n TR cx cy) (accIm nh n TR cx cy) (accWt nh n TR cx cy)

/-- `atan2(y, x)`, modelled as the argument of the complex number `x + i y`. -/
noncomputable def atan2 (y x : ℝ) : ℝ := Complex.arg ⟨x, y⟩

/-- The angle-pass weight: the loop body assigns `a_n.wt = 1/n` once per
included cell, so the final weight is `1/n` when at least one cell was
included and the initial `0` otherwise. -/
noncomputable def angleWt (nh n : ℕ) (TR : ℤ → ℤ → ℝ) : ℝ :=
  if includedCells n TR = ∅ then 0 else 1 / (nh : ℝ)

/-- `EccentricityAngleAccumulator::finish`: `wt*(atan2(im,re) + π)`, with the
accumulated `re`, `im` (identical to the magnitude pass). -/
noncomputable def angleObs (nh n : ℕ) (TR : ℤ → ℤ → ℝ) (cx cy : ℝ) : ℝ :=
  angleWt nh n TR * (atan2 (accIm nh n TR cx cy) (accRe nh n TR cx cy) + Real.pi)

/-- `RadiusAccumulator::finish`: `fmax(wt, TINY)`. -/
noncomputable def radiusFinish (wt : ℝ) : ℝ := max wt TINY

/-- The radius observable of order `nh`:
`dxy*dxy*R_n.finish()/total_ent` — an unguarded division by `total_ent`,
modelled through `fdiv`. -/
noncomputable def radiusObs (nh n : ℕ) (TR : ℤ → ℤ → ℝ) (cx cy dxy : ℝ) :
    Option ℝ :=
  fdiv (dxy * dxy * radiusFinish (accWt nh n TR cx cy)) (totalEnt n TR)

/-- The observable vector written by `Event::compute_observables`, by flat
index: slot 2 holds `dxy²·Si`; slots 3–5 the magnitudes of orders 2–4;
slots 6–8 the angle observables of orders 2–4; slots 9–11 the radius
observables of orders 2–4.  Slots the pass never writes are `none`; a slot
whose division is undefined (zero denominator) is also `none`. -/
noncomputable def observables (n : ℕ) (TR : ℤ → ℤ → ℝ) (cx cy dxy : ℝ) :
    ℕ → Option ℝ :=
  fun i =>
    if i = 2 then some (dxy * dxy * entropySum n TR)
    else if i = 3 then some (eccMag 2 n TR cx cy)
    else if i = 4 then some (eccMag 3 n TR cx cy)
    else if i = 5 then some (eccMag 4 n TR cx cy)
    else if i = 6 then some (angleObs 2 n TR cx cy)
    else if i = 7 then some (angleObs 3 n TR cx cy)
    else if i = 8 then some (angleObs 4 n TR cx cy)
    else if i = 9 then radiusObs 2 n TR cx cy dxy
    else if i = 10 then radiusObs 3 n TR cx cy dxy
    else if i = 11 then radiusObs 4 n TR cx cy dxy
    else none

/-- The naive trigonometric real part named by the spec:
`t · r^n · cos(n·φ)` with `φ = atan2(y, x)`. -/
noncomputable def naiveRe (n : ℕ) (t x y : ℝ) : ℝ :=
  t * Real.sqrt (x ^ 2 + y ^ 2) ^ n * Real.cos ((n : ℝ) * atan2 y x)

/-- The naive trigonometric imaginary part named by the spec:
`t · r^n · sin(n·φ)` with `φ = atan2(y, x)`. -/
noncomputable def naiveIm (n : ℕ) (t x y : ℝ) : ℝ :=
  t * Real.sqrt (x ^ 2 + y ^ 2) ^ n * Real.sin ((n : ℝ) * atan2 y x)

/-- De Moivre's formula, componentwise. -/
theorem cos_sin_pow (θ : ℝ) (n : ℕ) :
    (⟨Real.cos θ, Real.sin θ⟩ : ℂ) ^ n = ⟨Real.cos (n * θ), Real.sin (n * θ)⟩ := by
  induction n with
  | zero => apply Complex.ext <;> simp
  | succ k ih =>
      have harg : ((k : ℝ) + 1) * θ = (k : ℝ) * θ + θ := by ring
      rw [pow_succ, ih]
      apply Complex.ext <;>
        (simp [Complex.mul_re, Complex.mul_im, harg, Real.cos_add, Real.sin_add];
          try ring)

/-- Polar identity: `r^n·cos(n·arg z)` and `r^n·sin(n·arg z)` are exactly the
components of `z^n` for `z = x + iy`. -/
theorem abs_pow_mul_cos_sin_arg (x y : ℝ) (n : ℕ) :
    Complex.abs ⟨x, y⟩ ^ n * Real.cos ((n : ℝ) * Complex.arg ⟨x, y⟩) =
        ((⟨x, y⟩ : ℂ) ^ n).re ∧
      Complex.abs ⟨x, y⟩ ^ n * Real.sin ((n : ℝ) * Complex.arg ⟨x, y⟩) =
        ((⟨x, y⟩ : ℂ) ^ n).im := by
  by_cases hz : (⟨x, y⟩ : ℂ) = 0
  · rw [hz]
    cases n with
    | zero => simp
    | succ k => simp [zero_pow]
  · set z : ℂ := ⟨x, y⟩ with hzdef
    have hzeq : z = (Complex.abs z : ℂ) * ⟨Real.cos z.arg, Real.sin z.arg⟩ := by
      apply Complex.ext
      · simpa [Complex.mul_re] using (Complex.abs_mul_cos_arg z).symm
      · simpa [Complex.mul_im] using (Complex.abs_mul_sin_arg z).symm
    have hpow : z ^ n =
        (Complex.abs z ^ n : ℝ) * (⟨Real.cos (n * z.arg), Real.sin (n * z.arg)⟩ : ℂ) := by
      calc z ^ n = ((Complex.abs z : ℂ) * ⟨Real.cos z.arg, Real.sin z.arg⟩) ^ n := by
            rw [← hzeq]
        _ = (Complex.abs z : ℂ) ^ n * (⟨Real.cos z.arg, Real.sin z.arg⟩ : ℂ) ^ n :=
            mul_pow _ _ n
        _ = (Complex.abs z ^ n : ℝ) *
              (⟨Real.cos (n * z.arg), Real.sin (n * z.arg)⟩ : ℂ) := by
            rw [cos_sin_pow, Complex.ofReal_pow]
    constructor
    · rw [hpow]; simp [Complex.mul_re, ← Complex.ofReal_pow]
    · rw [hpow]; simp [Complex.mul_im, ← Complex.ofReal_pow]

/-- `Complex.abs ⟨x, y⟩` is the radius `sqrt (x² + y²)`. -/
theorem abs_mk_eq_sqrt (x y : ℝ) :
    Complex.abs ⟨x, y⟩ = Real.sqrt (x ^ 2 + y ^ 2) := by
  rw [Complex.abs_apply, Complex.normSq_mk]
  congr 1
  ring

/-- Explicit components of `(x + iy)^2`. -/
theorem pow_mk_two (x y : ℝ) :
    ((⟨x, y⟩ : ℂ) ^ 2).re = x ^ 2 - y ^ 2 ∧
      ((⟨x, y⟩ : ℂ) ^ 2).im = 2 * (x * y) := by
  refine ⟨?_, ?_⟩ <;> (simp [pow_succ, Complex.mul_re, Complex.mul_im]; try ring)

/-- Explicit components of `(x + iy)^3`. -/
theorem pow_mk_three (x y : ℝ) :
    ((⟨x, y⟩ : ℂ) ^ 3).re = x ^ 3 - 3 * x * y ^ 2 ∧
      ((⟨x, y⟩ : ℂ) ^ 3).im = 3 * x ^ 2 * y - y ^ 3 := by
  refine ⟨?_, ?_⟩ <;> (simp [pow_succ, Complex.mul_re, Complex.mul_im]; try ring)

/-- Explicit components of `(x + iy)^4`. -/
theorem pow_mk_four (x y : ℝ) :
    ((⟨x, y⟩ : ℂ) ^ 4).re = x ^ 4 + y ^ 4 - 6 * (x ^ 2 * y ^ 2) ∧
      ((⟨x, y⟩ : ℂ) ^ 4).im = 4 * (x * y) * (x ^ 2 - y ^ 2) := by
  refine ⟨?_, ?_⟩ <;> (simp [pow_succ, Complex.mul_re, Complex.mul_im]; try ring)

/-- Explicit components of `(x + iy)^5`. -/
theorem pow_mk_five (x y : ℝ) :
    ((⟨x, y⟩ : ℂ) ^ 5).re = x * (x ^ 4 - 10 * (x ^ 2 * y ^ 2) + 5 * y ^ 4) ∧
      ((⟨x, y⟩ : ℂ) ^ 5).im = y * (5 * x ^ 4 - 10 * (x ^ 2 * y ^ 2) + y ^ 4) := by
  refine ⟨?_, ?_⟩ <;> (simp [pow_succ, Complex.mul_re, Complex.mul_im]; try ring)

/-- C9: for every configured step `s > 0` and configured half-width `m > 0`,
construction produces `nsteps = ceil(2·m/s)` and actual half-width
`xymax = nsteps·s/2`, and consequently `xymax ≥ m`. -/
theorem grid_construction_half_width (m s : ℝ) (_hm : 0 < m) (hs : 0 < s) :
    nstepsOf m s = ⌈2 * m / s⌉ ∧
      xymaxOf m s = (nstepsOf m s : ℝ) * s / 2 ∧
      m ≤ xymaxOf m s := by
  refine ⟨rfl, by unfold xymaxOf; ring, ?_⟩
  have h1 : 2 * m / s ≤ ((nstepsOf m s : ℤ) : ℝ) := Int.le_ceil _
  have h2 : 2 * m / s * s ≤ ((nstepsOf m s : ℤ) : ℝ) * s :=
    mul_le_mul_of_nonneg_right h1 hs.le
  rw [div_mul_cancel₀ _ hs.ne'] at h2
  unfold xymaxOf
  linarith

/-- Witness for C9 at `m = 1`, `s = 1`. -/
theorem grid_construction_half_width_witness :
    nstepsOf 1 1 = ⌈(2 : ℝ) * 1 / 1⌉ ∧
      xymaxOf 1 1 = (nstepsOf 1 1 : ℝ) * 1 / 2 ∧
      (1 : ℝ) ≤ xymaxOf 1 1 := by
  have h := grid_construction_half_width 1 1 (by norm_num) (by norm_num)
  exact h

/-- C4: the generalized-mean selector chooses exactly one binary function at
construction: geometric mean when `|p| < 1e-12`; the power mean
`(0.5·(a^p+b^p))^(1/p)` when `p` is positive (beyond tolerance); and the
same power mean guarded to `0` when either argument is below `1e-12` when
`p` is negative (beyond tolerance). -/
theorem select_mean_branches (p : ℝ) :
    (|p| < TINY → ∀ a b : ℝ, select_mean p a b = Real.sqrt (a * b)) ∧
      (¬ |p| < TINY → 0 < p →
        ∀ a b : ℝ, select_mean p a b = (0.5 * (a ^ p + b ^ p)) ^ (1 / p)) ∧
      (¬ |p| < TINY → p < 0 →
        ∀ a b : ℝ,
          (a < TINY ∨ b < TINY → select_mean p a b = 0) ∧
          (¬ (a < TINY ∨ b < TINY) →
            select_mean p a b = (0.5 * (a ^ p + b ^ p)) ^ (1 / p))) := by
  refine ⟨?_, ?_, ?_⟩
  · intro h a b
    simp [select_mean, h, geometric_mean]
  · intro h hp a b
    simp [select_mean, h, hp, positive_pmean]
  · intro h hp a b
    have hnp : ¬ 0 < p := by linarith
    constructor
    · intro hab
      simp [select_mean, h, hnp, negative_pmean, hab]
    · intro hab
      simp [select_mean, h, hnp, negative_pmean, hab, positive_pmean]

/-- Witness for C4 at `p = 1`, `a = 2`, `b = 3` (positive-power branch). -/
theorem select_mean_branches_witness :
    select_mean 1 2 3 = (0.5 * ((2 : ℝ) ^ (1 : ℝ) + (3 : ℝ) ^ (1 : ℝ))) ^ (1 / (1 : ℝ)) :=
  (select_mean_branches 1).2.1 (by norm_num [TINY]) (by norm_num) 2 3

/-- `clip` lands in `[mn, mx]` whenever `mn ≤ mx`. -/
theorem clip_mem (v mn mx : ℤ) (h : mn ≤ mx) :
    mn ≤ clip v mn mx ∧ clip v mn mx ≤ mx := by
  unfold clip
  split_ifs <;> omega

/-- C8: with at least one grid step, all four clipped index bounds lie in
`[0, nsteps-1]` for any boundary returned by the deposition rule, and every
cell the deposition loop can touch (equivalently, every cell at which
`deposit` changes the grid) lies in `[0, nsteps-1]` on both axes. -/
theorem deposition_indices_in_range (P : GridP) (nc : NucleonCommon)
    (nuc : Nucleon) (h : 1 ≤ P.nsteps) :
    (0 ≤ ixminIdx P nc nuc ∧ ixminIdx P nc nuc ≤ P.nsteps - 1) ∧
      (0 ≤ ixmaxIdx P nc nuc ∧ ixmaxIdx P nc nuc ≤ P.nsteps - 1) ∧
      (0 ≤ iyminIdx P nc nuc ∧ iyminIdx P nc nuc ≤ P.nsteps - 1) ∧
      (0 ≤ iymaxIdx P nc nuc ∧ iymaxIdx P nc nuc ≤ P.nsteps - 1) ∧
      ∀ (g : ℤ → ℤ → ℝ) (iy ix : ℤ), deposit P nc nuc g iy ix ≠ g iy ix →
        0 ≤ ix ∧ ix ≤ P.nsteps - 1 ∧ 0 ≤ iy ∧ iy ≤ P.nsteps - 1 := by
  have hb : (0 : ℤ) ≤ P.nsteps - 1 := by omega
  have h1 : 0 ≤ ixminIdx P nc nuc ∧ ixminIdx P nc nuc ≤ P.nsteps - 1 :=
    clip_mem _ 0 _ hb
  have h2 : 0 ≤ ixmaxIdx P nc nuc ∧ ixmaxIdx P nc nuc ≤ P.nsteps - 1 :=
    clip_mem _ 0 _ hb
  have h3 : 0 ≤ iyminIdx P nc nuc ∧ iyminIdx P nc nuc ≤ P.nsteps - 1 :=
    clip_mem _ 0 _ hb
  have h4 : 0 ≤ iymaxIdx P nc nuc ∧ iymaxIdx P nc nuc ≤ P.nsteps - 1 :=
    clip_mem _ 0 _ hb
  refine ⟨h1, h2, h3, h4, ?_⟩
  intro g iy ix hne
  unfold deposit at hne
  by_cases hrect : inRect P nc nuc iy ix
  · obtain ⟨ha, hb', hc, hd⟩ := hrect
    exact ⟨le_trans h1.1 ha, le_trans hb' h2.2, le_trans h3.1 hc, le_trans hd h4.2⟩
  · simp [hrect] at hne

/-- Witness for C8: a one-cell grid with a trivial deposition rule. -/
theorem deposition_indices_in_range_witness :
    (0 ≤ ixminIdx ⟨1, 1, 0.5⟩ ⟨fun _ => ⟨0, 0, 0, 0⟩, fun _ _ _ => 0⟩ ⟨0, 0, true⟩ ∧
        ixminIdx ⟨1, 1, 0.5⟩ ⟨fun _ => ⟨0, 0, 0, 0⟩, fun _ _ _ => 0⟩ ⟨0, 0, true⟩ ≤ (1 : ℤ) - 1) ∧
      (0 ≤ ixmaxIdx ⟨1, 1, 0.5⟩ ⟨fun _ => ⟨0, 0, 0, 0⟩, fun _ _ _ => 0⟩ ⟨0, 0, true⟩ ∧
        ixmaxIdx ⟨1, 1, 0.5⟩ ⟨fun _ => ⟨0, 0, 0, 0⟩, fun _ _ _ => 0⟩ ⟨0, 0, true⟩ ≤ (1 : ℤ) - 1) ∧
      (0 ≤ iyminIdx ⟨1, 1, 0.5⟩ ⟨fun _ => ⟨0, 0, 0, 0⟩, fun _ _ _ => 0⟩ ⟨0, 0, true⟩ ∧
        iyminIdx ⟨1, 1, 0.5⟩ ⟨fun _ => ⟨0, 0, 0, 0⟩, fun _ _ _ => 0⟩ ⟨0, 0, true⟩ ≤ (1 : ℤ) - 1) ∧
      (0 ≤ iymaxIdx ⟨1, 1, 0.5⟩ ⟨fun _ => ⟨0, 0, 0, 0⟩, fun _ _ _ => 0⟩ ⟨0, 0, true⟩ ∧
        iymaxIdx ⟨1, 1, 0.5⟩ ⟨fun _ => ⟨0, 0, 0, 0⟩, fun _ _ _ => 0⟩ ⟨0, 0, true⟩ ≤ (1 : ℤ) - 1) ∧
      ∀ (g : ℤ → ℤ → ℝ) (iy ix : ℤ),
        deposit ⟨1, 1, 0.5⟩ ⟨fun _ => ⟨0, 0, 0, 0⟩, fun _ _ _ => 0⟩ ⟨0, 0, true⟩ g iy ix ≠ g iy ix →
          0 ≤ ix ∧ ix ≤ (1 : ℤ) - 1 ∧ 0 ≤ iy ∧ iy ≤ (1 : ℤ) - 1 :=
  deposition_indices_in_range ⟨1, 1, 0.5⟩ ⟨fun _ => ⟨0, 0, 0, 0⟩, fun _ _ _ => 0⟩
    ⟨0, 0, true⟩ (by norm_num)

/-- C1: for every pair of thickness fields, the combiner writes
`norm · mean(TA[iy][ix], TB[iy][ix])` into every cell of the reduced field,
and the reported multiplicity is exactly `dxy²` times the sum of all cells
of the produced field (round trip). -/
theorem reduced_thickness_round_trip (gm : ℝ → ℝ → ℝ) (norm dxy : ℝ) (n : ℕ)
    (TA TB : ℤ → ℤ → ℝ) :
    (∀ iy ix : ℕ, iy < n → ix < n →
        (compute_reduced_thickness gm norm n TA TB).TR (iy : ℤ) (ix : ℤ) =
          norm * gm (TA (iy : ℤ) (ix : ℤ)) (TB (iy : ℤ) (ix : ℤ))) ∧
      multiplicity gm norm dxy n TA TB =
        dxy * dxy * gridSum n (compute_reduced_thickness gm norm n TA TB).TR := by
  have hspec := combine_foldl_spec gm norm TA TB (cellList n) ⟨fun _ _ => 0, 0, 0, 0⟩
  constructor
  · intro iy ix hy hx
    have := hspec.2 (iy : ℤ) (ix : ℤ)
    rw [show (cellList n).foldl (combineStep gm norm TA TB) ⟨fun _ _ => 0, 0, 0, 0⟩ =
        compute_reduced_thickness gm norm n TA TB from rfl] at this
    rw [this, if_pos (mem_cellList n iy ix hy hx)]
    rfl
  · have hsum : (compute_reduced_thickness gm norm n TA TB).sum =
        ((cellList n).map (cellValue gm norm TA TB)).sum := by
      have := hspec.1
      rw [show (cellList n).foldl (combineStep gm norm TA TB) ⟨fun _ _ => 0, 0, 0, 0⟩ =
          compute_reduced_thickness gm norm n TA TB from rfl] at this
      simpa using this
    have hTR : ∀ iy ix : ℕ, iy < n → ix < n →
        (compute_reduced_thickness gm norm n TA TB).TR (iy : ℤ) (ix : ℤ) =
          cellValue gm norm TA TB ((iy : ℤ), (ix : ℤ)) := by
      intro iy ix hy hx
      have := hspec.2 (iy : ℤ) (ix : ℤ)
      rw [show (cellList n).foldl (combineStep gm norm TA TB) ⟨fun _ _ => 0, 0, 0, 0⟩ =
          compute_reduced_thickness gm norm n TA TB from rfl] at this
      rw [this, if_pos (mem_cellList n iy ix hy hx)]
    have hlist : ((cellList n).map (cellValue gm norm TA TB)).sum =
        ∑ iy ∈ Finset.range n, ∑ ix ∈ Finset.range n,
          cellValue gm norm TA TB ((iy : ℤ), (ix : ℤ)) := by
      unfold cellList
      rw [sum_map_flatMap]
      have hrow : ∀ iy : ℕ, (((rowCells n iy).map (cellValue gm norm TA TB)).sum) =
          ∑ ix ∈ Finset.range n, cellValue gm norm TA TB ((iy : ℤ), (ix : ℤ)) := by
        intro iy
        unfold rowCells
        rw [List.map_map]
        exact sum_map_range _ n
      calc ((List.range n).map
            fun a => (((rowCells n a).map (cellValue gm norm TA TB)).sum)).sum
          = ((List.range n).map
            fun (a : ℕ) => ∑ ix ∈ Finset.range n,
              cellValue gm norm TA TB ((a : ℤ), (ix : ℤ))).sum := by
            congr 1
            exact List.map_congr_left fun a _ => hrow a
        _ = ∑ iy ∈ Finset.range n, ∑ ix ∈ Finset.range n,
              cellValue gm norm TA TB ((iy : ℤ), (ix : ℤ)) := sum_map_range _ n
    unfold multiplicity gridSum
    rw [hsum, hlist]
    congr 1
    refine Finset.sum_congr rfl fun iy hiy => Finset.sum_congr rfl fun ix hix => ?_
    rw [hTR iy ix (Finset.mem_range.mp hiy) (Finset.mem_range.mp hix)]

/-- Witness for C1 on a `1 × 1` grid with constant unit fields and the
geometric mean. -/
theorem reduced_thickness_round_trip_witness :
    (compute_reduced_thickness geometric_mean 1 1 (fun _ _ => 1) (fun _ _ => 1)).TR 0 0 =
        1 * geometric_mean 1 1 ∧
      multiplicity geometric_mean 1 1 1 (fun _ _ => 1) (fun _ _ => 1) =
        1 * 1 * gridSum 1
          (compute_reduced_thickness geometric_mean 1 1 (fun _ _ => 1) (fun _ _ => 1)).TR := by
  have h := reduced_thickness_round_trip geometric_mean 1 1 1
    (fun _ _ => 1) (fun _ _ => 1)
  exact ⟨h.1 0 0 (by norm_num) (by norm_num), h.2⟩

/-- C2 (failure exhibit): with two all-zero thickness fields (zero spatial
overlap) on a `2 × 2` grid, `p = 0` and `norm = 1`, the reduced-thickness
sum is `0`; the reported multiplicity is `0`, but both centroid divisions
`ixcm/sum`, `iycm/sum` are division by exactly zero (`none`: NaN in IEEE
arithmetic, no deterministic fallback), and the radius observable divides
by a zero `total_ent` as well (`none`: no `1e-12` floor on that
denominator). -/
theorem zero_sum_division_unguarded :
    (compute_reduced_thickness (select_mean 0) 1 2 (fun _ _ => 0) (fun _ _ => 0)).sum = 0 ∧
      multiplicity (select_mean 0) 1 1 2 (fun _ _ => 0) (fun _ _ => 0) = 0 ∧
      ixcmResult (select_mean 0) 1 2 (fun _ _ => 0) (fun _ _ => 0) = none ∧
      iycmResult (select_mean 0) 1 2 (fun _ _ => 0) (fun _ _ => 0) = none ∧
      observables 2 (fun _ _ => 0) 0 0 1 9 = none := by
  have hsel : select_mean 0 = geometric_mean := by
    unfold select_mean
    rw [if_pos]
    rw [abs_zero]
    unfold TINY
    norm_num
  have hzero : ∀ a b : ℝ, select_mean 0 a b = Real.sqrt (a * b) := by
    intro a b; rw [hsel]; rfl
  have hsum : (compute_reduced_thickness (select_mean 0) 1 2
      (fun _ _ => 0) (fun _ _ => 0)).sum = 0 := by
    unfold compute_reduced_thickness cellList rowCells
    simp [List.range_succ, combineStep, cellValue, hzero]
  refine ⟨hsum, ?_, ?_, ?_, ?_⟩
  · unfold multiplicity
    rw [hsum]
    ring
  · unfold ixcmResult fdiv
    rw [if_pos hsum]
  · unfold iycmResult fdiv
    rw [if_pos hsum]
  · have hincl : includedCells 2 (fun _ _ => (0 : ℝ)) = ∅ := by
      unfold includedCells TINY
      apply Finset.filter_false_of_mem
      intro c _
      norm_num
    have htot : totalEnt 2 (fun _ _ => (0 : ℝ)) = 0 := by
      unfold totalEnt
      rw [hincl]
      simp
    unfold observables
    norm_num
    unfold radiusObs fdiv
    rw [if_pos htot]

/-- The thickness fold, characterized over any nucleon list: participants
are counted and their rectangle contributions added; non-participants leave
both components unchanged. -/
theorem thickness_foldl_spec (P : GridP) (nc : NucleonCommon)
    (L : List Nucleon) (st : (ℤ → ℤ → ℝ) × ℕ) :
    ((L.foldl (thicknessStep P nc) st).2 =
        st.2 + (L.filter (fun nuc => nuc.is_participant)).length) ∧
      ∀ iy ix : ℤ, (L.foldl (thicknessStep P nc) st).1 iy ix =
        st.1 iy ix +
          ((L.filter (fun nuc => nuc.is_participant)).map
            (fun nuc => nucleonContrib P nc nuc iy ix)).sum := by
  induction L generalizing st with
  | nil => simp
  | cons nuc L ih =>
      rw [List.foldl_cons]
      by_cases hp : nuc.is_participant
      · have hstep : thicknessStep P nc st nuc = (deposit P nc nuc st.1, st.2 + 1) := by
          unfold thicknessStep
          rw [if_pos hp]
        constructor
        · rw [hstep, (ih _).1]
          simp [hp]
          omega
        · intro iy ix
          rw [hstep, (ih _).2]
          unfold deposit nucleonContrib
          simp [List.filter_cons, hp]
          by_cases hrect : inRect P nc nuc iy ix
          · simp only [if_pos hrect]
            ring
          · simp only [if_neg hrect]
            ring
      · have hstep : thicknessStep P nc st nuc = st := by
          unfold thicknessStep
          rw [if_neg hp]
        constructor
        · rw [hstep, (ih _).1]
          simp [hp]
        · intro iy ix
          rw [hstep, (ih _).2]
          simp [hp]

/-- C5: the thickness accumulation first zeroes the whole target grid
(the result is independent of the grid's previous contents `g0` and every
cell not covered by any participant is `0`), skips non-participants
(leaving grid and counter unchanged), increments the counter once per
participant, and adds `thickness(nucleon, cell center)` over the clipped
inclusive index rectangle of each participant: every cell of the final grid
is exactly the sum of its covered participants' thickness values. -/
theorem nuclear_thickness_spec (P : GridP) (nc : NucleonCommon)
    (nucleus : List Nucleon) (npart0 : ℕ) (g0 : ℤ → ℤ → ℝ) :
    ((compute_nuclear_thickness P nc nucleus npart0 g0).2 =
        npart0 + (nucleus.filter (fun nuc => nuc.is_participant)).length) ∧
      ∀ iy ix : ℤ, (compute_nuclear_thickness P nc nucleus npart0 g0).1 iy ix =
        ((nucleus.filter (fun nuc => nuc.is_participant)).map
          (fun nuc => nucleonContrib P nc nuc iy ix)).sum := by
  have h := thickness_foldl_spec P nc nucleus (fun _ _ => (0 : ℝ), npart0)
  refine ⟨h.1, fun iy ix => ?_⟩
  have := h.2 iy ix
  simpa using this

/-- A sum over the included cells equals the sum over all grid cells with
every below-tolerance cell's contribution replaced by `0`. -/
theorem sum_included_eq (n : ℕ) (TR : ℤ → ℤ → ℝ) (f : ℕ × ℕ → ℝ) :
    ∑ c ∈ includedCells n TR, f c =
      ∑ iy ∈ Finset.range n, ∑ ix ∈ Finset.range n,
        if TR (iy : ℤ) (ix : ℤ) < TINY then 0 else f (iy, ix) := by
  unfold includedCells
  rw [Finset.sum_filter, Finset.sum_product]
  exact Finset.sum_congr rfl fun iy _ => Finset.sum_congr rfl fun ix _ => ite_not _ _ _

/-- `wtTerm` is the `nh`-th power of the radius for the harmonic orders in
play. -/
theorem wtTerm_eq_sqrt_pow (nh : ℕ) (h : nh ∈ ({2, 3, 4, 5} : Finset ℕ)) (x y : ℝ) :
    wtTerm nh x y = Real.sqrt (x ^ 2 + y ^ 2) ^ nh := by
  have h0 : (0 : ℝ) ≤ x ^ 2 + y ^ 2 := by positivity
  have hs : Real.sqrt (x ^ 2 + y ^ 2) ^ 2 = x ^ 2 + y ^ 2 := Real.sq_sqrt h0
  fin_cases h
  · show x ^ 2 + y ^ 2 = Real.sqrt (x ^ 2 + y ^ 2) ^ 2
    rw [hs]
  · show (x ^ 2 + y ^ 2) * Real.sqrt (x ^ 2 + y ^ 2) = Real.sqrt (x ^ 2 + y ^ 2) ^ 3
    rw [show Real.sqrt (x ^ 2 + y ^ 2) ^ 3 =
      Real.sqrt (x ^ 2 + y ^ 2) ^ 2 * Real.sqrt (x ^ 2 + y ^ 2) from by ring, hs]
  · show (x ^ 2 + y ^ 2) * (x ^ 2 + y ^ 2) = Real.sqrt (x ^ 2 + y ^ 2) ^ 4
    rw [show Real.sqrt (x ^ 2 + y ^ 2) ^ 4 =
      Real.sqrt (x ^ 2 + y ^ 2) ^ 2 * Real.sqrt (x ^ 2 + y ^ 2) ^ 2 from by ring, hs]
  · show (x ^ 2 + y ^ 2) * (x ^ 2 + y ^ 2) * Real.sqrt (x ^ 2 + y ^ 2) =
      Real.sqrt (x ^ 2 + y ^ 2) ^ 5
    rw [show Real.sqrt (x ^ 2 + y ^ 2) ^ 5 =
      Real.sqrt (x ^ 2 + y ^ 2) ^ 2 * Real.sqrt (x ^ 2 + y ^ 2) ^ 2 *
        Real.sqrt (x ^ 2 + y ^ 2) from by ring, hs]

/-- C7: for each harmonic order in 2–5, every cell below tolerance `1e-12`
contributes nothing to any accumulated sum (complex moment parts, weight,
integrated entropy, and the radius denominator `total_ent`), and the
eccentricity magnitude equals `sqrt(re² + im²) / max(wt, 1e-12)` with the
weight accumulating `Σ t·rⁿ`. -/
theorem tolerance_exclusion_and_magnitude (nh n : ℕ) (TR : ℤ → ℤ → ℝ)
    (cx cy : ℝ) (h : nh ∈ ({2, 3, 4, 5} : Finset ℕ)) :
    (accRe nh n TR cx cy = ∑ iy ∈ Finset.range n, ∑ ix ∈ Finset.range n,
        if TR (iy : ℤ) (ix : ℤ) < TINY then 0
        else TR (iy : ℤ) (ix : ℤ) * termRe nh ((ix : ℝ) - cx) ((iy : ℝ) - cy)) ∧
      (accIm nh n TR cx cy = ∑ iy ∈ Finset.range n, ∑ ix ∈ Finset.range n,
        if TR (iy : ℤ) (ix : ℤ) < TINY then 0
        else TR (iy : ℤ) (ix : ℤ) * termIm nh ((ix : ℝ) - cx) ((iy : ℝ) - cy)) ∧
      (accWt nh n TR cx cy = ∑ iy ∈ Finset.range n, ∑ ix ∈ Finset.range n,
        if TR (iy : ℤ) (ix : ℤ) < TINY then 0
        else TR (iy : ℤ) (ix : ℤ) *
          Real.sqrt (((ix : ℝ) - cx) ^ 2 + ((iy : ℝ) - cy) ^ 2) ^ nh) ∧
      (entropySum n TR = ∑ iy ∈ Finset.range n, ∑ ix ∈ Finset.range n,
        if TR (iy : ℤ) (ix : ℤ) < TINY then 0
        else TR (iy : ℤ) (ix : ℤ) ^ ((4 : ℝ) / 3)) ∧
      (totalEnt n TR = ∑ iy ∈ Finset.range n, ∑ ix ∈ Finset.range n,
        if TR (iy : ℤ) (ix : ℤ) < TINY then 0 else TR (iy : ℤ) (ix : ℤ)) ∧
      eccMag nh n TR cx cy =
        Real.sqrt (accRe nh n TR cx cy * accRe nh n TR cx cy +
            accIm nh n TR cx cy * accIm nh n TR cx cy) /
          max (accWt nh n TR cx cy) TINY := by
  refine ⟨sum_included_eq n TR _, sum_included_eq n TR _, ?_, sum_included_eq n TR _,
    sum_included_eq n TR _, rfl⟩
  have hw : accWt nh n TR cx cy = ∑ c ∈ includedCells n TR,
      TR (c.1 : ℤ) (c.2 : ℤ) *
        Real.sqrt (relX c cx ^ 2 + relY c cy ^ 2) ^ nh := by
    unfold accWt
    exact Finset.sum_congr rfl fun c _ => by rw [wtTerm_eq_sqrt_pow nh h]
  rw [hw, sum_included_eq n TR
    (fun c => TR (c.1 : ℤ) (c.2 : ℤ) * Real.sqrt (relX c cx ^ 2 + relY c cy ^ 2) ^ nh)]
  rfl

/-- Witness for C7 at order 2 on an empty grid. -/
theorem tolerance_exclusion_and_magnitude_witness :
    eccMag 2 0 (fun _ _ => 0) 0 0 =
      Real.sqrt (accRe 2 0 (fun _ _ => 0) 0 0 * accRe 2 0 (fun _ _ => 0) 0 0 +
          accIm 2 0 (fun _ _ => 0) 0 0 * accIm 2 0 (fun _ _ => 0) 0 0) /
        max (accWt 2 0 (fun _ _ => 0) 0 0) TINY :=
  (tolerance_exclusion_and_magnitude 2 0 (fun _ _ => 0) 0 0 (by decide)).2.2.2.2.2

/-- C3 (failure exhibit): the observable-extraction pass writes exactly the
flat slots 2–11 of the output vector — the integrated entropy (slot 2) and,
for harmonic orders 2, 3 and 4 only, the magnitudes (slots 3–5), the angle
observables (slots 6–8) and the radii (slots 9–11).  Ten slots are written,
so the thirteen values the specification requires (magnitude, angle and
radius for every order in 2–5 plus the entropy scalar) cannot all be
present: the order-5 observables are accumulated but never stored. -/
theorem observable_slots_written (n : ℕ) (TR : ℤ → ℤ → ℝ) (cx cy dxy : ℝ)
    (h : totalEnt n TR ≠ 0) :
    ∀ i : ℕ, (observables n TR cx cy dxy i).isSome = true ↔ 2 ≤ i ∧ i ≤ 11 := by
  have hr : ∀ nh : ℕ, (radiusObs nh n TR cx cy dxy).isSome = true := by
    intro nh
    unfold radiusObs fdiv
    rw [if_neg h]
    rfl
  intro i
  by_cases hle : 2 ≤ i ∧ i ≤ 11
  · obtain ⟨hl, hu⟩ := hle
    interval_cases i <;> (simp [observables, hr]; try omega)
  · have hne : i ≠ 2 ∧ i ≠ 3 ∧ i ≠ 4 ∧ i ≠ 5 ∧ i ≠ 6 ∧ i ≠ 7 ∧ i ≠ 8 ∧
        i ≠ 9 ∧ i ≠ 10 ∧ i ≠ 11 := by omega
    obtain ⟨n2, n3, n4, n5, n6, n7, n8, n9, n10, n11⟩ := hne
    simp only [observables, n2, n3, n4, n5, n6, n7, n8, n9, n10, n11, if_false,
      ite_false, Option.isSome_none]
    constructor
    · intro hfalse
      simp at hfalse
    · intro hiff
      exact absurd hiff hle

/-- Witness for C3: slot 2 on a `1 × 1` grid of constant value `1`. -/
theorem observable_slots_written_witness :
    (observables 1 (fun _ _ => 1) 0 0 1 2).isSome = true ↔ 2 ≤ 2 ∧ 2 ≤ 11 := by
  have hincl : includedCells 1 (fun _ _ => (1 : ℝ)) =
      Finset.range 1 ×ˢ Finset.range 1 := by
    unfold includedCells
    apply Finset.filter_true_of_mem
    intro c _
    unfold TINY
    norm_num
  have h : totalEnt 1 (fun _ _ => (1 : ℝ)) ≠ 0 := by
    unfold totalEnt
    rw [hincl]
    norm_num
  exact observable_slots_written 1 (fun _ _ => 1) 0 0 1 h 2

/-- The naive trigonometric terms are `t` times the components of
`(x + iy)^n`. -/
theorem naive_eq_pow_components (nn : ℕ) (t x y : ℝ) :
    naiveRe nn t x y = t * ((⟨x, y⟩ : ℂ) ^ nn).re ∧
      naiveIm nn t x y = t * ((⟨x, y⟩ : ℂ) ^ nn).im := by
  have h := abs_pow_mul_cos_sin_arg x y nn
  constructor
  · unfold naiveRe atan2
    rw [← abs_mk_eq_sqrt, mul_assoc, h.1]
  · unfold naiveIm atan2
    rw [← abs_mk_eq_sqrt, mul_assoc, h.2]

/-- C6 counterexample: at `t = 1`, `(x, y) = (1, 0)` and order 2, the code
accumulates the real term `t·(y² − x²) = −1`, while the naive trigonometric
term `t·r²·cos(2·atan2(y,x))` equals `1`: the accumulated polynomial terms
are not equal to `t·rⁿ·cos(nφ)` and `t·rⁿ·sin(nφ)` respectively. -/
theorem moment_term_differs_from_naive :
    (1 : ℝ) * termRe 2 1 0 ≠ naiveRe 2 1 1 0 := by
  rw [(naive_eq_pow_components 2 1 1 0).1, (pow_mk_two 1 0).1]
  have hterm : termRe 2 (1 : ℝ) 0 = (0 : ℝ) ^ 2 - 1 ^ 2 := rfl
  rw [hterm]
  norm_num

/-- C6 (amended): for every cell the closed-form polynomial terms are
pointwise equivalent to the naive trigonometric formulation up to a fixed
order-dependent phase convention — order 2 gives `(−t·r²·cos2φ, t·r²·sin2φ)`,
order 3 gives `(−t·r³·sin3φ, −t·r³·cos3φ)`, order 4 gives
`(t·r⁴·cos4φ, −t·r⁴·sin4φ)`, order 5 gives `(t·r⁵·sin5φ, t·r⁵·cos5φ)` — and
consequently the squared modulus of the accumulated term agrees with the
naive formulation for every order in 2–5. -/
theorem moment_terms_phase_equivalent (t x y : ℝ) :
    ((t * termRe 2 x y = -(naiveRe 2 t x y) ∧ t * termIm 2 x y = naiveIm 2 t x y) ∧
        (t * termRe 3 x y = -(naiveIm 3 t x y) ∧ t * termIm 3 x y = -(naiveRe 3 t x y)) ∧
        (t * termRe 4 x y = naiveRe 4 t x y ∧ t * termIm 4 x y = -(naiveIm 4 t x y)) ∧
        (t * termRe 5 x y = naiveIm 5 t x y ∧ t * termIm 5 x y = naiveRe 5 t x y)) ∧
      ∀ nn ∈ ({2, 3, 4, 5} : Finset ℕ),
        (t * termRe nn x y) ^ 2 + (t * termIm nn x y) ^ 2 =
          naiveRe nn t x y ^ 2 + naiveIm nn t x y ^ 2 := by
  have e2 := naive_eq_pow_components 2 t x y
  have e3 := naive_eq_pow_components 3 t x y
  have e4 := naive_eq_pow_components 4 t x y
  have e5 := naive_eq_pow_components 5 t x y
  have p2 := pow_mk_two x y
  have p3 := pow_mk_three x y
  have p4 := pow_mk_four x y
  have p5 := pow_mk_five x y
  have t2re : termRe 2 x y = y ^ 2 - x ^ 2 := rfl
  have t2im : termIm 2 x y = 2 * (x * y) := rfl
  have t3re : termRe 3 x y = y ^ 3 - 3 * y * x ^ 2 := rfl
  have t3im : termIm 3 x y = 3 * x * y ^ 2 - x ^ 3 := rfl
  have t4re : termRe 4 x y = x ^ 4 + y ^ 4 - 6 * (x ^ 2 * y ^ 2) := rfl
  have t4im : termIm 4 x y = 4 * (x * y) * (y ^ 2 - x ^ 2) := rfl
  have t5re : termRe 5 x y = y * (5 * x ^ 4 - 10 * (x ^ 2 * y ^ 2) + y ^ 4) := rfl
  have t5im : termIm 5 x y = x * (x ^ 4 - 10 * (x ^ 2 * y ^ 2) + 5 * y ^ 4) := rfl
  have main : (t * termRe 2 x y = -(naiveRe 2 t x y) ∧
        t * termIm 2 x y = naiveIm 2 t x y) ∧
      (t * termRe 3 x y = -(naiveIm 3 t x y) ∧
        t * termIm 3 x y = -(naiveRe 3 t x y)) ∧
      (t * termRe 4 x y = naiveRe 4 t x y ∧
        t * termIm 4 x y = -(naiveIm 4 t x y)) ∧
      (t * termRe 5 x y = naiveIm 5 t x y ∧
        t * termIm 5 x y = naiveRe 5 t x y) := by
    refine ⟨⟨?_, ?_⟩, ⟨?_, ?_⟩, ⟨?_, ?_⟩, ⟨?_, ?_⟩⟩
    · rw [e2.1, p2.1, t2re]; ring
    · rw [e2.2, p2.2, t2im]
    · rw [e3.2, p3.2, t3re]; ring
    · rw [e3.1, p3.1, t3im]; ring
    · rw [e4.1, p4.1, t4re]
    · rw [e4.2, p4.2, t4im]; ring
    · rw [e5.2, p5.2, t5re]
    · rw [e5.1, p5.1, t5im]
  refine ⟨main, ?_⟩
  intro nn hnn
  fin_cases hnn
  · rw [main.1.1, main.1.2]; ring
  · rw [main.2.1.1, main.2.1.2]; ring
  · rw [main.2.2.1.1, main.2.2.1.2]; ring
  · rw [main.2.2.2.1, main.2.2.2.2]; ring

/-- Witness for C6 (amended) at `t = 1`, `(x, y) = (1, 0)`, order 2. -/
theorem moment_terms_phase_equivalent_witness :
    ((1 : ℝ) * termRe 2 1 0) ^ 2 + ((1 : ℝ) * termIm 2 1 0) ^ 2 =
      naiveRe 2 1 1 0 ^ 2 + naiveIm 2 1 1 0 ^ 2 :=
  (moment_terms_phase_equivalent 1 1 0).2 2 (by decide)

/-- The squared cell polynomials sum to the even power of the radius. -/
theorem term_sq_add_term_sq (nh : ℕ) (h : nh ∈ ({2, 3, 4, 5} : Finset ℕ))
    (x y : ℝ) :
    termRe nh x y ^ 2 + termIm nh x y ^ 2 = (x ^ 2 + y ^ 2) ^ nh := by
  fin_cases h
  · show (y ^ 2 - x ^ 2) ^ 2 + (2 * (x * y)) ^ 2 = (x ^ 2 + y ^ 2) ^ 2
    ring
  · show (y ^ 3 - 3 * y * x ^ 2) ^ 2 + (3 * x * y ^ 2 - x ^ 3) ^ 2 =
      (x ^ 2 + y ^ 2) ^ 3
    ring
  · show (x ^ 4 + y ^ 4 - 6 * (x ^ 2 * y ^ 2)) ^ 2 +
      (4 * (x * y) * (y ^ 2 - x ^ 2)) ^ 2 = (x ^ 2 + y ^ 2) ^ 4
    ring
  · show (y * (5 * x ^ 4 - 10 * (x ^ 2 * y ^ 2) + y ^ 4)) ^ 2 +
      (x * (x ^ 4 - 10 * (x ^ 2 * y ^ 2) + 5 * y ^ 4)) ^ 2 = (x ^ 2 + y ^ 2) ^ 5
    ring

/-- `TINY` is positive. -/
theorem TINY_pos : (0 : ℝ) < TINY := by
  unfold TINY
  norm_num

/-- Cells of the included set carry a nonnegative (indeed `≥ TINY`) value. -/
theorem includedCells_value_nonneg (n : ℕ) (TR : ℤ → ℤ → ℝ) (c : ℕ × ℕ)
    (hc : c ∈ includedCells n TR) : 0 ≤ TR (c.1 : ℤ) (c.2 : ℤ) := by
  unfold includedCells at hc
  have := (Finset.mem_filter.mp hc).2
  have h1 : TINY ≤ TR (c.1 : ℤ) (c.2 : ℤ) := not_lt.mp this
  linarith [TINY_pos]

/-- The modulus of one accumulated complex term is `t · rⁿ = t · wtTerm`. -/
theorem cell_term_abs (nh : ℕ) (h : nh ∈ ({2, 3, 4, 5} : Finset ℕ))
    (t x y : ℝ) (ht : 0 ≤ t) :
    Complex.abs ⟨t * termRe nh x y, t * termIm nh x y⟩ = t * wtTerm nh x y := by
  rw [Complex.abs_apply, Complex.normSq_mk]
  have hsq : t * termRe nh x y * (t * termRe nh x y) +
      t * termIm nh x y * (t * termIm nh x y) =
      t ^ 2 * ((x ^ 2 + y ^ 2) ^ nh) := by
    rw [← term_sq_add_term_sq nh h x y]
    ring
  rw [hsq, Real.sqrt_mul (by positivity), Real.sqrt_sq ht,
    wtTerm_eq_sqrt_pow nh h x y]
  congr 1
  have h0 : (0 : ℝ) ≤ x ^ 2 + y ^ 2 := by positivity
  have hs : Real.sqrt (x ^ 2 + y ^ 2) ^ 2 = x ^ 2 + y ^ 2 := Real.sq_sqrt h0
  fin_cases h
  · rw [show ((x ^ 2 + y ^ 2) ^ 2) = (Real.sqrt (x ^ 2 + y ^ 2) ^ 2) ^ 2 from by
      rw [hs]]
    exact Real.sqrt_sq (by positivity)
  · rw [show ((x ^ 2 + y ^ 2) ^ 3) =
      (Real.sqrt (x ^ 2 + y ^ 2) ^ 3) ^ 2 from by rw [show
        (Real.sqrt (x ^ 2 + y ^ 2) ^ 3) ^ 2 =
          (Real.sqrt (x ^ 2 + y ^ 2) ^ 2) ^ 3 from by ring, hs]]
    exact Real.sqrt_sq (by positivity)
  · rw [show ((x ^ 2 + y ^ 2) ^ 4) =
      (Real.sqrt (x ^ 2 + y ^ 2) ^ 4) ^ 2 from by rw [show
        (Real.sqrt (x ^ 2 + y ^ 2) ^ 4) ^ 2 =
          (Real.sqrt (x ^ 2 + y ^ 2) ^ 2) ^ 4 from by ring, hs]]
    exact Real.sqrt_sq (by positivity)
  · rw [show ((x ^ 2 + y ^ 2) ^ 5) =
      (Real.sqrt (x ^ 2 + y ^ 2) ^ 5) ^ 2 from by rw [show
        (Real.sqrt (x ^ 2 + y ^ 2) ^ 5) ^ 2 =
          (Real.sqrt (x ^ 2 + y ^ 2) ^ 2) ^ 5 from by ring, hs]]
    exact Real.sqrt_sq (by positivity)

/-- C10: every eccentricity magnitude produced by the magnitude pass lies in
`[0, 1]`: the modulus of the accumulated moment never exceeds the
accumulated weight, and the division by `fmax(wt, TINY)` cannot push the
ratio above `1` (with no included cells the result is `0`). -/
theorem eccentricity_magnitude_in_unit_interval (nh n : ℕ) (TR : ℤ → ℤ → ℝ)
    (cx cy : ℝ) (h : nh ∈ ({2, 3, 4, 5} : Finset ℕ)) :
    0 ≤ eccMag nh n TR cx cy ∧ eccMag nh n TR cx cy ≤ 1 := by
  have hmax : (0 : ℝ) < max (accWt nh n TR cx cy) TINY :=
    lt_of_lt_of_le TINY_pos (le_max_right _ _)
  constructor
  · exact div_nonneg (Real.sqrt_nonneg _) hmax.le
  · rw [eccMag, eccFinish, div_le_one hmax]
    have habs : Real.sqrt (accRe nh n TR cx cy * accRe nh n TR cx cy +
        accIm nh n TR cx cy * accIm nh n TR cx cy) =
        Complex.abs ⟨accRe nh n TR cx cy, accIm nh n TR cx cy⟩ := by
      rw [Complex.abs_apply, Complex.normSq_mk]
    have hsum : (⟨accRe nh n TR cx cy, accIm nh n TR cx cy⟩ : ℂ) =
        ∑ c ∈ includedCells n TR,
          (⟨TR (c.1 : ℤ) (c.2 : ℤ) * termRe nh (relX c cx) (relY c cy),
            TR (c.1 : ℤ) (c.2 : ℤ) * termIm nh (relX c cx) (relY c cy)⟩ : ℂ) := by
      apply Complex.ext
      · rw [Complex.re_sum]
        exact rfl
      · rw [Complex.im_sum]
        exact rfl
    have htri : Complex.abs (∑ c ∈ includedCells n TR,
        (⟨TR (c.1 : ℤ) (c.2 : ℤ) * termRe nh (relX c cx) (relY c cy),
          TR (c.1 : ℤ) (c.2 : ℤ) * termIm nh (relX c cx) (relY c cy)⟩ : ℂ)) ≤
        ∑ c ∈ includedCells n TR,
          Complex.abs (⟨TR (c.1 : ℤ) (c.2 : ℤ) * termRe nh (relX c cx) (relY c cy),
            TR (c.1 : ℤ) (c.2 : ℤ) * termIm nh (relX c cx) (relY c cy)⟩ : ℂ) :=
      Complex.abs.sum_le _ _
    have hperm : ∑ c ∈ includedCells n TR,
        Complex.abs (⟨TR (c.1 : ℤ) (c.2 : ℤ) * termRe nh (relX c cx) (relY c cy),
          TR (c.1 : ℤ) (c.2 : ℤ) * termIm nh (relX c cx) (relY c cy)⟩ : ℂ) =
        accWt nh n TR cx cy := by
      unfold accWt
      refine Finset.sum_congr rfl fun c hc => ?_
      exact cell_term_abs nh h _ _ _ (includedCells_value_nonneg n TR c hc)
    calc Real.sqrt (accRe nh n TR cx cy * accRe nh n TR cx cy +
          accIm nh n TR cx cy * accIm nh n TR cx cy)
        = Complex.abs ⟨accRe nh n TR cx cy, accIm nh n TR cx cy⟩ := habs
      _ ≤ accWt nh n TR cx cy := by rw [hsum]; rw [← hperm] at *; exact htri
      _ ≤ max (accWt nh n TR cx cy) TINY := le_max_left _ _

/-- Witness for C10 at order 2 on an empty grid. -/
theorem eccentricity_magnitude_in_unit_interval_witness :
    0 ≤ eccMag 2 0 (fun _ _ => 0) 0 0 ∧ eccMag 2 0 (fun _ _ => 0) 0 0 ≤ 1 :=
  eccentricity_magnitude_in_unit_interval 2 0 (fun _ _ => 0) 0 0 (by decide)

end Trento
